import Mathlib

/-!
Verification of the ulog structured logger (UNO-SOFT/ulog).

Shallow embedding of the field-encoding and line-assembly engine:
`fields.go` (encodedField, encodedFields.AppendFields / AppendEncoded /
Index / Reset, jsonEncoder.JSON, WrapError) and `log.go` (ULog, New,
With, Write, timeFormat, the scratch pools).

Modelling decisions:
- Go values passed as fields are modelled by the inductive `GoVal`,
  a representative universe (null, bool, int, string, error values,
  a reference to a mutable string map on an explicit heap, and values
  whose type the JSON serializer rejects, e.g. channels).
- Mutable Go maps are modelled by `Heap : Nat -> List (String x String)`;
  a `GoVal.mapRef n` field dereferences the heap at encoding time,
  exactly as `json.Marshal` snapshots a map when it runs.
- Go's `encoding/json` behaviour is reproduced: strings are quoted and
  escaped (HTML escaping on, as for a default `json.Encoder`), map keys
  are sorted, unsupported types yield the error
  "json: unsupported type: <type>", and `Encode` appends a newline that
  the callers strip.
- A Go runtime panic (index out of range) is modelled by `Option`:
  a function returns `none` where the Go code panics.
- The two `sync.Pool`s are modelled by explicit lists of free scratch
  objects threaded through `ULog.Write`.
- `runtime.Callers(5, pc[:])` with `var pc [16]uintptr` is modelled by
  handing `WrapError` the list of available frames; it captures at most
  16 of them, and captures none exactly when the list is empty.
- The destination `io.Writer` is a function `String -> Except String Nat`;
  `ULog.Write` discards its result, as the Go code does with `_, _ =`.
-/

/-- The heap of mutable Go string maps: address to current contents. -/
def Heap : Type := Nat → List (String × String)

/-- Errors of the Go program: plain errors, `fmt.Errorf("...%w...")`
wrappers, and the `wrappedErr` produced by `WrapError` with its `Err`
message and `Details` trace text. -/
inductive GoErr where
  | plain : String → GoErr
  | wrapf : String → GoErr → GoErr
  | wrappedE : String → String → GoErr
  deriving DecidableEq

/-- `Error()` of a Go error value. -/
def errMessage : GoErr → String
  | .plain m => m
  | .wrapf m _ => m
  | .wrappedE m _ => m

/-- `errors.As(err, &we)` for `we *wrappedErr`: walk the unwrap chain and
return the `Details` of the first `wrappedErr` found. -/
def findWrappedDetails : GoErr → Option String
  | .plain _ => none
  | .wrapf _ inner => findWrappedDetails inner
  | .wrappedE _ d => some d

/-- `fmt.Sprintf("%+v", err)`: a plain or `fmt.Errorf` error renders its
message; a `wrappedErr` has a `Format` method that writes `Details` for
the `+` flag. -/
def errFormatPlusV : GoErr → String
  | .plain m => m
  | .wrapf m _ => m
  | .wrappedE _ d => d

/-- The universe of Go values used as field keys and values. -/
inductive GoVal where
  | null : GoVal
  | bool : Bool → GoVal
  | int : Int → GoVal
  | str : String → GoVal
  | err : GoErr → GoVal
  | mapRef : Nat → GoVal
  | unsupported : String → GoVal
  deriving DecidableEq

/-- `Field` from fields.go: `type Field interface{}`. -/
abbrev ulog.Field := GoVal

/-- One hexadecimal digit, lower case, as used by `encoding/json` in
`\u00XX` escapes. -/
def hexDigitChar (n : Nat) : String :=
  if n < 10 then toString n
  else if n = 10 then "a"
  else if n = 11 then "b"
  else if n = 12 then "c"
  else if n = 13 then "d"
  else if n = 14 then "e"
  else "f"

/-- Escape one character the way `encoding/json` does with HTML escaping
enabled (the default for `json.Encoder` and `json.Marshal`). -/
def escapeChar (c : Char) : String :=
  if c = '"' then "\\\""
  else if c = '\\' then "\\\\"
  else if c = '\n' then "\\n"
  else if c = '\r' then "\\r"
  else if c = '\t' then "\\t"
  else if c = '<' then "\\u003c"
  else if c = '>' then "\\u003e"
  else if c = '&' then "\\u0026"
  else if c.toNat < 0x20 then "\\u00" ++ hexDigitChar (c.toNat / 16) ++ hexDigitChar (c.toNat % 16)
  else if c.toNat = 0x2028 then "\\u2028"
  else if c.toNat = 0x2029 then "\\u2029"
  else String.singleton c

/-- Go `json.Marshal` of a string: quoted and escaped. -/
def encodeJSONString (s : String) : String :=
  "\"" ++ String.join (s.toList.map escapeChar) ++ "\""

/-- Insert a key/value pair into a key-sorted list (Go `json.Marshal`
sorts map keys). -/
def insertSortedKV (x : String × String) : List (String × String) → List (String × String)
  | [] => [x]
  | y :: rest => if x.1 ≤ y.1 then x :: y :: rest else y :: insertSortedKV x rest

/-- Sort a string map snapshot by key, as `json.Marshal` renders maps. -/
def sortKV : List (String × String) → List (String × String)
  | [] => []
  | x :: rest => insertSortedKV x (sortKV rest)

/-- Comma-join JSON fragments. -/
def joinComma : List String → String
  | [] => ""
  | [x] => x
  | x :: y :: rest => x ++ "," ++ joinComma (y :: rest)

/-- `json.Marshal` of a `map[string]string` snapshot: a JSON object with
sorted keys. -/
def marshalStrMap (kvs : List (String × String)) : String :=
  "\x7b" ++ joinComma ((sortKV kvs).map (fun kv => encodeJSONString kv.1 ++ ":" ++ encodeJSONString kv.2)) ++ "\x7d"

/-- `json.Marshal` of an error value reached through reflection (only its
exported fields appear): `wrappedErr` has exported `Err` and `Details`;
a plain error value has no exported fields and marshals as an empty
object. Unreachable from `jsonEncoder.JSON`, which intercepts errors. -/
def marshalErrStruct : GoErr → String
  | .wrappedE e d => "\x7b\"Err\":" ++ encodeJSONString e ++ ",\"Details\":" ++ encodeJSONString d ++ "\x7d"
  | _ => "\x7b\x7d"

/-- Go `json.Marshal` on the `GoVal` universe. Unsupported types (channel,
function, ...) make `Marshal`, and hence `Encoder.Encode`, return
`*json.UnsupportedTypeError`, whose message is
`json: unsupported type: <type>`. -/
def marshalVal (H : Heap) : GoVal → Except String String
  | .null => .ok "null"
  | .bool b => .ok (if b then "true" else "false")
  | .int n => .ok (toString n)
  | .str s => .ok (encodeJSONString s)
  | .err e => .ok (marshalErrStruct e)
  | .mapRef n => .ok (marshalStrMap (H n))
  | .unsupported tname => .error ("json: unsupported type: " ++ tname)

/-- fields.go `jsonEncoder.JSON`: intercept non-nil error values (wrapped
errors contribute their `Details`, others `fmt.Sprintf("%+v", err)`),
encode, and on an encoder error re-encode the error message; the
trailing newline written by `Encode` is stripped, so the result is the
bare `Marshal` output. -/
def jsonEncoder.JSON (H : Heap) (v : GoVal) : String :=
  let v2 : GoVal :=
    match v with
    | .err e =>
      match findWrappedDetails e with
      | some d => .str d
      | none => .str (errFormatPlusV e)
    | x => x
  match marshalVal H v2 with
  | .ok s => s
  | .error m => encodeJSONString m

/-- `encodedField` from fields.go: `[2]string` of encoded key and value. -/
abbrev encodedField := String × String

/-- `encodedFields` from fields.go. -/
abbrev encodedFields := List encodedField

/-- fields.go `encodedFields.Index`: index of the first field with the
given encoded key, `none` for Go's `-1`. -/
def encodedFields.Index : encodedFields → String → Option Nat
  | [], _ => none
  | f :: rest, key =>
    if f.1 = key then some 0
    else (encodedFields.Index rest key).map (fun n => n + 1)

/-- `(*eF)[i][1] = value` at the first slot holding `key`: overwrite the
value in place, keeping the key and its position. -/
def encodedFields.Overwrite : encodedFields → String → String → encodedFields
  | [], _, _ => []
  | f :: rest, key, value =>
    if f.1 = key then (f.1, value) :: rest
    else f :: encodedFields.Overwrite rest key value

/-- The shared insertion step of `AppendFields` and `AppendEncoded`:
overwrite in place if the key is present, else append a new slot. -/
def encodedFields.Insert (eF : encodedFields) (key value : String) : encodedFields :=
  match encodedFields.Index eF key with
  | some _ => encodedFields.Overwrite eF key value
  | none => eF ++ [(key, value)]

/-- fields.go `encodedFields.AppendFields`: consume a flat key/value list
two at a time. `rawValue := fields[ix+1]` is read while `ix < len(fields)`,
so a trailing unmatched entry makes the Go code index out of range and
panic: that is the `none` result. Non-string keys skip the pair. -/
def encodedFields.AppendFields (H : Heap) (eF : encodedFields) : List ulog.Field → Option encodedFields
  | [] => some eF
  | [_] => none
  | k :: v :: rest =>
    match k with
    | .str ks =>
      encodedFields.AppendFields H
        (encodedFields.Insert eF (jsonEncoder.JSON H (.str ks)) (jsonEncoder.JSON H v)) rest
    | _ => encodedFields.AppendFields H eF rest

/-- fields.go `encodedFields.AppendEncoded`: merge already-encoded fields,
overwriting in place on key collision, appending otherwise. -/
def encodedFields.AppendEncoded (eF : encodedFields) : encodedFields → encodedFields
  | [] => eF
  | f :: rest => encodedFields.AppendEncoded (encodedFields.Insert eF f.1 f.2) rest

/-- fields.go `encodedFields.Reset`: truncate to zero length. -/
def encodedFields.Reset (_ : encodedFields) : encodedFields := []

/-- The encoded keys of a field list. -/
def encodedFields.Keys (eF : encodedFields) : List String := eF.map Prod.fst

/-- The value stored under an encoded key (first occurrence). -/
def encodedFields.Lookup : encodedFields → String → Option String
  | [], _ => none
  | f :: rest, key => if f.1 = key then some f.2 else encodedFields.Lookup rest key

/-- A UTC instant, the result of `time.Now().UTC()` in log.go. -/
structure GoTime where
  year : Nat
  month : Nat
  day : Nat
  hour : Nat
  minute : Nat
  sec : Nat
  nanosec : Nat
  deriving DecidableEq

/-- Two-digit zero-padded decimal, Go layout `01`/`02`/`15`/`04`/`05`. -/
def pad2 (n : Nat) : String := if n < 10 then "0" ++ toString n else toString n

/-- Four-digit zero-padded decimal, Go layout `2006`. -/
def pad4 (n : Nat) : String :=
  if n < 10 then "000" ++ toString n
  else if n < 100 then "00" ++ toString n
  else if n < 1000 then "0" ++ toString n
  else toString n

/-- Six-digit zero-padded decimal, the microsecond field before Go's
trailing-zero trimming. -/
def pad6 (n : Nat) : String :=
  if n < 10 then "00000" ++ toString n
  else if n < 100 then "0000" ++ toString n
  else if n < 1000 then "000" ++ toString n
  else if n < 10000 then "00" ++ toString n
  else if n < 100000 then "0" ++ toString n
  else toString n

/-- Drop trailing `0` characters, as Go does for a `.999999` layout. -/
def trimRightZeros (s : String) : String :=
  String.mk ((s.toList.reverse.dropWhile (fun c => c == '0')).reverse)

/-- The fractional-second part of Go layout `.999999`: six digits taken
from the nanoseconds, trailing zeros removed, and the whole part
(including the dot) omitted when the fraction is zero. -/
def fracPart (ns : Nat) : String :=
  let s := trimRightZeros (pad6 (ns / 1000))
  if s = "" then "" else "." ++ s

/-- log.go `timeFormat` constant. -/
def timeFormat : String := "2006-01-02T15:04:05.999999"

/-- `now.AppendFormat(a[:0], timeFormat)` for the layout
`2006-01-02T15:04:05.999999` (the literal `Z` is written separately by
`Write`). -/
def goTimeFormat (t : GoTime) : String :=
  pad4 t.year ++ "-" ++ pad2 t.month ++ "-" ++ pad2 t.day ++ "T" ++
    pad2 t.hour ++ ":" ++ pad2 t.minute ++ ":" ++ pad2 t.sec ++ fracPart t.nanosec

/-- The destination `io.Writer`: bytes written or an error. -/
abbrev WriterFn := String → Except String Nat

/-- `DefaultWriter = os.Stderr`: an always-succeeding sink. -/
def DefaultWriter : WriterFn := fun s => .ok s.length

/-- log.go `DefaultTimestampKey`. -/
def DefaultTimestampKey : String := "ts"

/-- log.go `DefaultMessageKey`. -/
def DefaultMessageKey : String := "msg"

/-- log.go `ULog`. -/
structure ULog where
  Writer : Option WriterFn
  TimestampKey : String
  MessageKey : String
  fields : encodedFields

/-- log.go `New`. -/
def New : ULog :=
  { Writer := some DefaultWriter, TimestampKey := DefaultTimestampKey,
    MessageKey := DefaultMessageKey, fields := [] }

/-- The two `sync.Pool`s: free scratch field lists and free scratch
buffers. Checking out from an empty pool allocates a fresh item (the
pool's `New` function); items are reset before use, so their previous
contents never influence a call. -/
structure Pools where
  fieldLists : List encodedFields
  buffers : List String

/-- `scratchFields.Get()`: pop a scratch field list, or a fresh one. -/
def poolGetFields (p : Pools) : encodedFields × Pools :=
  (p.fieldLists.headD [], { p with fieldLists := p.fieldLists.tail })

/-- `scratchFields.Put(x)`. -/
def poolPutFields (p : Pools) (eF : encodedFields) : Pools :=
  { p with fieldLists := eF :: p.fieldLists }

/-- `scratchBuffers.Get()`: pop a scratch buffer, or a fresh one. -/
def poolGetBuf (p : Pools) : String × Pools :=
  (p.buffers.headD "", { p with buffers := p.buffers.tail })

/-- `scratchBuffers.Put(b)`. -/
def poolPutBuf (p : Pools) (b : String) : Pools :=
  { p with buffers := b :: p.buffers }

/-- log.go `ULog.With`: copy the handle, merge its context fields onto a
reset scratch list, then append the newly encoded fields. The scratch
list starts empty after `Reset`, so the base of the merge is `[]`; the
receiver's own list is only read. A heap is passed because encoding
dereferences mutable values at call time. -/
def ULog.With (H : Heap) (u : ULog) (fields : List ulog.Field) : Option ULog :=
  match encodedFields.AppendFields H (encodedFields.AppendEncoded [] u.fields) fields with
  | some fs => some { u with fields := fs }
  | none => none

/-- log.go `ULog.WithKeyNames`. -/
def ULog.WithKeyNames (u : ULog) (timestampKey messageKey : String) : ULog :=
  { u with
    TimestampKey := if timestampKey = "" then DefaultTimestampKey else timestampKey,
    MessageKey := if messageKey = "" then DefaultMessageKey else messageKey }

/-- The writer actually used by `Write`: the configured one, or
`DefaultWriter` when unset. -/
def resolveWriter (u : ULog) : WriterFn :=
  match u.Writer with
  | some w => w
  | none => DefaultWriter

/-- The merged field list built inside `Write`: context fields merged
onto the reset scratch list, then the flat call-site fields. -/
def writeMergedFields (H : Heap) (u : ULog) (fields : List ulog.Field) : Option encodedFields :=
  encodedFields.AppendFields H (encodedFields.AppendEncoded [] u.fields) fields

/-- `json.NewEncoder(sb).Encode(msg)` for a string message: writes the
encoded string and a newline into the buffer. Marshalling a Go string
cannot fail, so the result is always `ok`. -/
def goEncodeString (s : String) : Except String String :=
  .ok (encodeJSONString s ++ "\n")

/-- `fmt.Sprintf("%v", msg)` for a string `msg`. -/
def goSprintfV (s : String) : String := s

/-- Strip one trailing newline byte, the
`if sb.Bytes()[sb.Len()-1] == '\n'` / `sb.Truncate` step of `Write`. -/
def stripNLList : List Char → List Char
  | [] => []
  | [c] => if c = '\n' then [] else [c]
  | c :: d :: rest => c :: stripNLList (d :: rest)

/-- Strip one trailing newline from a string. -/
def stripNL (s : String) : String := String.mk (stripNLList s.toList)

/-- The message fragment written by `Write`: encode the message; if the
encoder reported an error, truncate and re-encode
`fmt.Sprintf("%v", msg)`; then strip the encoder's trailing newline. -/
def writeMsgStep (msg : String) : String :=
  let buf : String :=
    match goEncodeString msg with
    | .ok s => s
    | .error _ =>
      match goEncodeString (goSprintfV msg) with
      | .ok s => s
      | .error _ => ""
  stripNL buf

/-- The per-field output loop of `Write`: every merged field is emitted
as `, <encoded-key>: <encoded-value>` unless its (encoded) key equals
the effective message key or timestamp key. -/
def fieldsFragment (tsKey msgKey : String) (eF : encodedFields) : String :=
  String.join (eF.filterMap (fun f =>
    if f.1 = msgKey ∨ f.1 = tsKey then none
    else some (", " ++ f.1 ++ ": " ++ f.2)))

/-- log.go `ULog.Write`: resolve the key names, check out and reset the
scratch field list, merge context then call-site fields (a panic there
is `none`), check out the scratch buffer, assemble
`{ "<tsKey>": "<time>Z", "<msgKey>": <msg>` + fields + ` }\n`, hand the
bytes to the writer with the result discarded, and put both scratch
objects, reset, back into their pools. -/
def ULog.Write (H : Heap) (now : GoTime) (p : Pools) (u : ULog) (msg : String)
    (fields : List ulog.Field) : Option (Pools × String) :=
  let tsKey := if u.TimestampKey = "" then DefaultTimestampKey else u.TimestampKey
  let msgKey := if u.MessageKey = "" then DefaultMessageKey else u.MessageKey
  let p1 := (poolGetFields p).2
  match writeMergedFields H u fields with
  | none => none
  | some eF =>
    let p2 := (poolGetBuf p1).2
    let line :=
      "\x7b \"" ++ tsKey ++ "\": \"" ++ goTimeFormat now ++ "Z\", \"" ++ msgKey ++ "\": " ++
        writeMsgStep msg ++ fieldsFragment tsKey msgKey eF ++ " \x7d\n"
    let _ := resolveWriter u line
    some (poolPutBuf (poolPutFields p2 (encodedFields.Reset eF)) "", line)

/-- One stack frame as rendered by `WrapError`. -/
structure Frame where
  file : String
  line : Nat
  function : String
  deriving DecidableEq

/-- One `fmt.Fprintf(sb, "\n- %s:%d:%s", ...)` line of the details text. -/
def frameLine (f : Frame) : String :=
  "\n- " ++ f.file ++ ":" ++ toString f.line ++ ":" ++ f.function

/-- fields.go `WrapError`. `pcs` is the stack available above the skipped
prelude; `runtime.Callers(5, pc[:])` stores at most 16 entries (the size
of the `pc` array) and returns 0 exactly when nothing was captured, in
which case the original error is returned unchanged. Otherwise the
result is a `wrappedErr` whose `Err` is the original message and whose
`Details` is the message followed by one frame line per captured pc. -/
def WrapError (pcs : List Frame) (err : Option GoErr) : Option GoErr :=
  match err with
  | none => none
  | some e =>
    let captured := pcs.take 16
    if captured.isEmpty then some e
    else some (.wrappedE (errMessage e)
      (errMessage e ++ String.join (captured.map frameLine)))

/-- Bool test: `pat` is a prefix of `cs`. -/
def isPrefixList : List Char → List Char → Bool
  | [], _ => true
  | _ :: _, [] => false
  | p :: ps, c :: cs => p == c && isPrefixList ps cs

/-- Bool test: `pat` occurs as a contiguous sublist. -/
def subList (pat : List Char) : List Char → Bool
  | [] => isPrefixList pat []
  | c :: cs => isPrefixList pat (c :: cs) || subList pat cs

/-- Bool test: `pat` occurs as a substring of `s`. -/
def strContains (s pat : String) : Bool := subList pat.toList s.toList

/-- A heap with no live maps, for examples that use none. -/
def exHeap : Heap := fun _ => []

/-- A concrete write instant with zero nanoseconds. -/
def t0 : GoTime := ⟨2019, 11, 18, 14, 0, 32, 0⟩

/-- The same instant with half a second of nanoseconds. -/
def t8a : GoTime := ⟨2019, 11, 18, 14, 0, 32, 500000000⟩

/-- Both scratch pools empty: every checkout allocates fresh. -/
def emptyPools : Pools := ⟨[], []⟩

/-- A destination whose write always fails. -/
def failWriter : WriterFn := fun _ => .error "disk full"

/-- `new().with("p", 2)` from the spec's precedence example. -/
def c1Handle : Option ULog := ULog.With exHeap New [GoVal.str "p", GoVal.int 2]

/-- The line produced by `h.write("m", "p", 4)` on that handle. -/
def c1Line : Option String :=
  match c1Handle with
  | some h => (ULog.Write exHeap t0 emptyPools h "m" [GoVal.str "p", GoVal.int 4]).map Prod.snd
  | none => none

/-- The line produced by `write("m", "ts", 1)` on a default handle. -/
def c3Line : Option String :=
  (ULog.Write exHeap t0 emptyPools New "m" [GoVal.str "ts", GoVal.int 1]).map Prod.snd

/-- The line produced by `write("m", "a", 1, "a", 2)`. -/
def c4DupLine : Option String :=
  (ULog.Write exHeap t0 emptyPools New "m"
    [GoVal.str "a", GoVal.int 1, GoVal.str "a", GoVal.int 2]).map Prod.snd

/-- The line produced by `new().with("p", 2).with("p", 4).write("m")`. -/
def c4RederiveLine : Option String :=
  match ULog.With exHeap New [GoVal.str "p", GoVal.int 2] with
  | some h1 =>
    match ULog.With exHeap h1 [GoVal.str "p", GoVal.int 4] with
    | some h2 => (ULog.Write exHeap t0 emptyPools h2 "m" []).map Prod.snd
    | none => none
  | none => none

/-- The heap at `With` time: map 0 is `{"woo": "yay"}`. -/
def c5Heap1 : Heap := fun _ => [("woo", "yay")]

/-- The heap after the caller mutates map 0. -/
def c5Heap2 : Heap := fun _ => [("woo", "no"), ("yay", "yes")]

/-- The handle derived by `With(c5Heap1, "values", map 0)`. -/
def c5Handle : ULog := { New with fields := [("\"values\"", "\x7b\"woo\":\"yay\"\x7d")] }

/-- The line a later `Write` (under the mutated heap) emits. -/
def c5Line : Option String :=
  match ULog.With c5Heap1 New [GoVal.str "values", GoVal.mapRef 0] with
  | some h => (ULog.Write c5Heap2 t0 emptyPools h "this is a test" []).map Prod.snd
  | none => none

/-- What the encoder substitutes for a bare `chan int` value. -/
def c6Encoded : String := jsonEncoder.JSON exHeap (GoVal.unsupported "chan int")

/-- The line produced by `write("a message")` at an instant with zero
nanoseconds. -/
def c8Line : Option String :=
  (ULog.Write exHeap t0 emptyPools New "a message" []).map Prod.snd

/-- Appending strings appends their character data. -/
theorem strToList_append (a b : String) : (a ++ b).toList = a.toList ++ b.toList := by
  cases a
  cases b
  rfl

/-- Rebuilding a string from its characters is the identity. -/
theorem strMk_toList (s : String) : String.mk s.toList = s := rfl

/-- Stripping a trailing newline undoes appending one. -/
theorem stripNLList_concat (l : List Char) : stripNLList (l ++ [Char.ofNat 10]) = l := by
  induction l with
  | nil => rfl
  | cons c rest ih =>
    cases rest with
    | nil => rfl
    | cons d rest2 =>
      show c :: stripNLList ((d :: rest2) ++ [Char.ofNat 10]) = c :: (d :: rest2)
      rw [ih]

/-- The message fragment of `Write` is always the plain JSON encoding of
the message: the in-buffer encoder cannot fail on a string. -/
theorem writeMsgStep_eq (msg : String) : writeMsgStep msg = encodeJSONString msg := by
  show stripNL (encodeJSONString msg ++ "\n") = encodeJSONString msg
  unfold stripNL
  rw [strToList_append]
  have hn : String.toList "\n" = [Char.ofNat 10] := rfl
  rw [hn, stripNLList_concat, strMk_toList]

/-- Overwriting a value in place never changes the key sequence. -/
theorem Overwrite_Keys (eF : encodedFields) (k v : String) :
    encodedFields.Keys (encodedFields.Overwrite eF k v) = encodedFields.Keys eF := by
  induction eF with
  | nil => rfl
  | cons f rest ih =>
    by_cases h : f.1 = k
    · simp [encodedFields.Overwrite, h, encodedFields.Keys]
    · simp [encodedFields.Overwrite, h, encodedFields.Keys] at ih ⊢
      exact ih

/-- `Index` misses exactly the keys that are absent. -/
theorem Index_none_iff (eF : encodedFields) (k : String) :
    encodedFields.Index eF k = none ↔ k ∉ encodedFields.Keys eF := by
  induction eF with
  | nil => simp [encodedFields.Index, encodedFields.Keys]
  | cons f rest ih =>
    have hks : encodedFields.Keys (f :: rest) = f.1 :: encodedFields.Keys rest := rfl
    rw [hks, List.mem_cons]
    by_cases h : f.1 = k
    · simp [encodedFields.Index, h]
    · have hstep : encodedFields.Index (f :: rest) k
          = (encodedFields.Index rest k).map (fun n => n + 1) := by
        simp [encodedFields.Index, h]
      rw [hstep, Option.map_eq_none', ih]
      constructor
      · intro hk hor
        cases hor with
        | inl he => exact h he.symm
        | inr hm => exact hk hm
      · intro hor hm
        exact hor (Or.inr hm)

/-- A de-duplicating insertion preserves key uniqueness. -/
theorem Insert_nodup (eF : encodedFields) (k v : String)
    (h : (encodedFields.Keys eF).Nodup) :
    (encodedFields.Keys (encodedFields.Insert eF k v)).Nodup := by
  unfold encodedFields.Insert
  cases hidx : encodedFields.Index eF k with
  | some i => rw [Overwrite_Keys]; exact h
  | none =>
    have hk : k ∉ encodedFields.Keys eF := (Index_none_iff eF k).mp hidx
    have : encodedFields.Keys (eF ++ [(k, v)]) = encodedFields.Keys eF ++ [k] := by
      simp [encodedFields.Keys]
    rw [this]
    simp [List.nodup_append, h, hk]

/-- `AppendFields` preserves key uniqueness whenever it returns. -/
theorem AppendFields_nodup : ∀ (fs : List ulog.Field) (H : Heap) (eF eF' : encodedFields),
    (encodedFields.Keys eF).Nodup → encodedFields.AppendFields H eF fs = some eF' →
    (encodedFields.Keys eF').Nodup
  | [], _, eF, eF', h, heq => by
    simp [encodedFields.AppendFields] at heq
    exact heq ▸ h
  | [_], _, _, _, _, heq => by
    simp [encodedFields.AppendFields] at heq
  | k :: v :: rest, H, eF, eF', h, heq => by
    cases k with
    | str ks =>
      exact AppendFields_nodup rest H _ eF'
        (Insert_nodup _ _ _ h) heq
    | null => exact AppendFields_nodup rest H eF eF' h heq
    | bool b => exact AppendFields_nodup rest H eF eF' h heq
    | int n => exact AppendFields_nodup rest H eF eF' h heq
    | err e => exact AppendFields_nodup rest H eF eF' h heq
    | mapRef n => exact AppendFields_nodup rest H eF eF' h heq
    | unsupported t => exact AppendFields_nodup rest H eF eF' h heq

/-- `AppendEncoded` preserves key uniqueness. -/
theorem AppendEncoded_nodup : ∀ (gs eF : encodedFields),
    (encodedFields.Keys eF).Nodup →
    (encodedFields.Keys (encodedFields.AppendEncoded eF gs)).Nodup
  | [], _, h => h
  | f :: rest, eF, h =>
    AppendEncoded_nodup rest _ (Insert_nodup eF f.1 f.2 h)

/-- An odd-length flat field list always drives `AppendFields` into the
out-of-range read. -/
theorem AppendFields_odd : ∀ (fs : List ulog.Field) (H : Heap) (eF : encodedFields),
    fs.length % 2 = 1 → encodedFields.AppendFields H eF fs = none
  | [], _, _, h => by simp at h
  | [_], _, _, _ => rfl
  | k :: v :: rest, H, eF, h => by
    have hr : rest.length % 2 = 1 := by
      have : (k :: v :: rest).length = rest.length + 2 := by simp
      omega
    cases k with
    | str ks => exact AppendFields_odd rest H _ hr
    | null => exact AppendFields_odd rest H eF hr
    | bool b => exact AppendFields_odd rest H eF hr
    | int n => exact AppendFields_odd rest H eF hr
    | err e => exact AppendFields_odd rest H eF hr
    | mapRef n => exact AppendFields_odd rest H eF hr
    | unsupported t => exact AppendFields_odd rest H eF hr

/-- An even-length flat field list never hits the out-of-range read. -/
theorem AppendFields_even : ∀ (fs : List ulog.Field) (H : Heap) (eF : encodedFields),
    fs.length % 2 = 0 → ∃ r, encodedFields.AppendFields H eF fs = some r
  | [], _, eF, _ => ⟨eF, rfl⟩
  | [_], _, _, h => by simp at h
  | k :: v :: rest, H, eF, h => by
    have hr : rest.length % 2 = 0 := by
      have : (k :: v :: rest).length = rest.length + 2 := by simp
      omega
    cases k with
    | str ks => exact AppendFields_even rest H _ hr
    | null => exact AppendFields_even rest H eF hr
    | bool b => exact AppendFields_even rest H eF hr
    | int n => exact AppendFields_even rest H eF hr
    | err e => exact AppendFields_even rest H eF hr
    | mapRef n => exact AppendFields_even rest H eF hr
    | unsupported t => exact AppendFields_even rest H eF hr

/-- After an in-place overwrite, looking the key up yields the new value. -/
theorem Lookup_Overwrite : ∀ (eF : encodedFields) (k v : String),
    encodedFields.Index eF k ≠ none →
    encodedFields.Lookup (encodedFields.Overwrite eF k v) k = some v
  | [], k, v, h => absurd rfl h
  | f :: rest, k, v, h => by
    by_cases hf : f.1 = k
    · simp [encodedFields.Overwrite, hf, encodedFields.Lookup]
    · have hrest : encodedFields.Index rest k ≠ none := by
        intro h0
        apply h
        simp [encodedFields.Index, hf, h0]
      simp [encodedFields.Overwrite, hf, encodedFields.Lookup]
      exact Lookup_Overwrite rest k v hrest

/-- Merging an already-encoded list whose keys are fresh and mutually
distinct just appends it. -/
theorem AppendEncoded_append : ∀ (gs acc : encodedFields),
    (encodedFields.Keys gs).Nodup →
    (∀ x ∈ encodedFields.Keys gs, x ∉ encodedFields.Keys acc) →
    encodedFields.AppendEncoded acc gs = acc ++ gs
  | [], acc, _, _ => by simp [encodedFields.AppendEncoded]
  | f :: rest, acc, hnd, hdisj => by
    have hf : f.1 ∉ encodedFields.Keys acc := by
      apply hdisj
      simp [encodedFields.Keys]
    have hidx : encodedFields.Index acc f.1 = none := (Index_none_iff acc f.1).mpr hf
    have hins : encodedFields.Insert acc f.1 f.2 = acc ++ [f] := by
      simp [encodedFields.Insert, hidx]
    have hnd2 : (encodedFields.Keys rest).Nodup := by
      have : encodedFields.Keys (f :: rest) = f.1 :: encodedFields.Keys rest := rfl
      rw [this] at hnd
      exact hnd.of_cons
    have hdisj2 : ∀ x ∈ encodedFields.Keys rest, x ∉ encodedFields.Keys (acc ++ [f]) := by
      intro x hx
      have hxacc : x ∉ encodedFields.Keys acc := by
        apply hdisj
        have : encodedFields.Keys (f :: rest) = f.1 :: encodedFields.Keys rest := rfl
        rw [this]
        exact List.mem_cons_of_mem _ hx
      have hxf : x ≠ f.1 := by
        have : encodedFields.Keys (f :: rest) = f.1 :: encodedFields.Keys rest := rfl
        rw [this] at hnd
        intro he
        rw [he] at hx
        exact (List.nodup_cons.mp hnd).1 hx
      have : encodedFields.Keys (acc ++ [f]) = encodedFields.Keys acc ++ [f.1] := by
        simp [encodedFields.Keys]
      rw [this]
      simp [hxacc, hxf]
    show encodedFields.AppendEncoded (encodedFields.Insert acc f.1 f.2) rest = acc ++ f :: rest
    rw [hins, AppendEncoded_append rest (acc ++ [f]) hnd2 hdisj2]
    simp

/-- Merging a unique-keyed context onto the freshly reset scratch list
reproduces it exactly, as `Write` and `With` do. -/
theorem AppendEncoded_nil_left (xs : encodedFields)
    (h : (encodedFields.Keys xs).Nodup) :
    encodedFields.AppendEncoded [] xs = xs := by
  have := AppendEncoded_append xs [] h (by intro x _; simp [encodedFields.Keys])
  simpa using this

/-- Claim C2: the claim says an odd-length flat field list passed to
`Write` or `With` completes without panicking, dropping the trailing
key. The code disagrees: `AppendFields` reads `fields[ix+1]` while
`ix < len(fields)`, so every odd-length list reaches an out-of-range
index and panics (modelled as `none`), and the panic propagates out of
both `Write` and `With`. -/
theorem C2_odd_flat_list_panics :
    (∀ (H : Heap) (eF : encodedFields) (fs : List ulog.Field),
      fs.length % 2 = 1 → encodedFields.AppendFields H eF fs = none) ∧
    (∀ (H : Heap) (now : GoTime) (p : Pools) (u : ULog) (msg : String) (fs : List ulog.Field),
      fs.length % 2 = 1 → ULog.Write H now p u msg fs = none) ∧
    (∀ (H : Heap) (u : ULog) (fs : List ulog.Field),
      fs.length % 2 = 1 → ULog.With H u fs = none) := by
  refine ⟨fun H eF fs h => AppendFields_odd fs H eF h, ?_, ?_⟩
  · intro H now p u msg fs h
    have hm : writeMergedFields H u fs = none :=
      AppendFields_odd fs H (encodedFields.AppendEncoded [] u.fields) h
    simp [ULog.Write, hm]
  · intro H u fs h
    have hm := AppendFields_odd fs H (encodedFields.AppendEncoded [] u.fields) h
    simp [ULog.With, hm]

/-- Witness for C2 at the failing input `Write("m", "k")`: a single-entry
flat list has odd length and makes `AppendFields` (and `Write`) hit the
out-of-range read. -/
theorem C2_odd_flat_list_panics_witness :
    ([GoVal.str "k"] : List ulog.Field).length % 2 = 1 ∧
    encodedFields.AppendFields exHeap [] [GoVal.str "k"] = none ∧
    ULog.Write exHeap t0 emptyPools New "m" [GoVal.str "k"] = none :=
  ⟨by decide,
   C2_odd_flat_list_panics.1 exHeap [] [GoVal.str "k"] (by decide),
   C2_odd_flat_list_panics.2.1 exHeap t0 emptyPools New "m" [GoVal.str "k"] (by decide)⟩

/-- Claim C6, counterexample: encoding a bare channel value substitutes
the serializer's error message as a JSON string, not the empty-object
placeholder the claim describes. -/
theorem C6_counterexample :
    c6Encoded = "\"json: unsupported type: chan int\"" ∧ c6Encoded ≠ "\x7b\x7d" := by
  constructor
  · rfl
  · decide

/-- Claim C6 as amended: encoding a value of an unsupported type never
fails the log call — `Write` still returns a line — but the substituted
fragment is the serializer's error message encoded as a JSON string
(`json: unsupported type: <type>`), not the type's empty structural
form. -/
theorem C6_unsupported_type_amended :
    (∀ (H : Heap) (tname : String),
      jsonEncoder.JSON H (GoVal.unsupported tname) =
        encodeJSONString ("json: unsupported type: " ++ tname)) ∧
    (∀ (H : Heap) (t : GoTime) (p : Pools) (u : ULog) (msg k tname : String),
      ULog.Write H t p u msg [GoVal.str k, GoVal.unsupported tname] ≠ none) := by
  constructor
  · intro H tname
    rfl
  · intro H t p u msg k tname
    simp [ULog.Write, writeMergedFields, encodedFields.AppendFields]

/-- Claim C7: `WrapError(nil)` is nil; wrapping preserves the `Error()`
message exactly; when frames were captured the wrapper stores the
composite details text (message plus one `\n- file:line:function` entry
per captured frame, at most 16); and the scalar encoder substitutes the
details text for a wrapped error, also when it is found through an
`fmt.Errorf` unwrap chain. -/
theorem C7_wrap_error :
    (∀ pcs : List Frame, WrapError pcs none = none) ∧
    (∀ (pcs : List Frame) (e : GoErr),
      Option.map errMessage (WrapError pcs (some e)) = some (errMessage e)) ∧
    (∀ (pcs : List Frame) (e : GoErr), pcs ≠ [] →
      WrapError pcs (some e) = some (GoErr.wrappedE (errMessage e)
        (errMessage e ++ String.join ((pcs.take 16).map frameLine)))) ∧
    (∀ (H : Heap) (m d : String),
      jsonEncoder.JSON H (GoVal.err (GoErr.wrappedE m d)) = encodeJSONString d) ∧
    (∀ (H : Heap) (m1 m d : String),
      jsonEncoder.JSON H (GoVal.err (GoErr.wrapf m1 (GoErr.wrappedE m d))) =
        encodeJSONString d) := by
  refine ⟨fun _ => rfl, ?_, ?_, fun _ _ _ => rfl, fun _ _ _ _ => rfl⟩
  · intro pcs e
    cases pcs with
    | nil => rfl
    | cons f rest => rfl
  · intro pcs e h
    cases pcs with
    | nil => exact absurd rfl h
    | cons f rest => rfl

/-- Witness for C7 at a concrete captured frame and error. -/
theorem C7_wrap_error_witness :
    ([(⟨"/src/f.go", 10, "main.f"⟩ : Frame)] ≠ []) ∧
    WrapError [⟨"/src/f.go", 10, "main.f"⟩] (some (GoErr.plain "EOF")) =
      some (GoErr.wrappedE "EOF" "EOF\n- /src/f.go:10:main.f") := by
  constructor
  · decide
  · have h := C7_wrap_error.2.2.1 [⟨"/src/f.go", 10, "main.f"⟩] (GoErr.plain "EOF")
      (by decide)
    exact h.trans (by decide)

/-- Claim C10: `json.NewEncoder(sb).Encode(msg)` on a string message
writing into an in-memory buffer cannot report an error — Go's string
marshalling is total and buffer writes cannot fail, which the model
mirrors — so `Write`'s truncate-and-re-encode fallback is unreachable
and the emitted message fragment is always the direct JSON string
encoding of the message. -/
theorem C10_message_fallback_unreachable :
    (∀ msg : String, goEncodeString msg = Except.ok (encodeJSONString msg ++ "\n")) ∧
    (∀ msg : String, writeMsgStep msg = encodeJSONString msg) :=
  ⟨fun _ => rfl, writeMsgStep_eq⟩

/-- Claim C1, counterexample: on `h = new().with("p", 2)`, the call
`h.write("m", "p", 4)` emits `"p": 4` and the line contains no
`"p": 2` — the call-site field overrides the context value, so context
does not take priority on collision. (The repo's own test
`TestOverridesContextValue` asserts exactly this behaviour.) -/
theorem C1_counterexample :
    c1Line = some "\x7b \"ts\": \"2019-11-18T14:00:32Z\", \"msg\": \"m\", \"p\": 4 \x7d\n" ∧
    strContains "\x7b \"ts\": \"2019-11-18T14:00:32Z\", \"msg\": \"m\", \"p\": 4 \x7d\n"
      "\"p\": 4" = true ∧
    strContains "\x7b \"ts\": \"2019-11-18T14:00:32Z\", \"msg\": \"m\", \"p\": 4 \x7d\n"
      "\"p\": 2" = false := by
  refine ⟨?_, by decide, by decide⟩
  rfl

/-- Claim C1 as amended: on a key collision between context and a flat
call-site field, the call-site value wins — `AppendFields` overwrites
the stored slot in place (keeping its position), so `Write`'s merged
list binds the key to the call-site encoding. -/
theorem C1_call_site_overrides_context (H : Heap) (u : ULog) (k : String) (v : GoVal)
    (hU : (encodedFields.Keys u.fields).Nodup)
    (hk : encodedFields.Index u.fields (jsonEncoder.JSON H (GoVal.str k)) ≠ none) :
    writeMergedFields H u [GoVal.str k, v] =
      some (encodedFields.Overwrite u.fields (jsonEncoder.JSON H (GoVal.str k))
        (jsonEncoder.JSON H v)) ∧
    encodedFields.Lookup
      (encodedFields.Overwrite u.fields (jsonEncoder.JSON H (GoVal.str k))
        (jsonEncoder.JSON H v))
      (jsonEncoder.JSON H (GoVal.str k)) = some (jsonEncoder.JSON H v) := by
  have hbase : encodedFields.AppendEncoded [] u.fields = u.fields :=
    AppendEncoded_nil_left u.fields hU
  constructor
  · show encodedFields.AppendFields H (encodedFields.AppendEncoded [] u.fields)
      [GoVal.str k, v] = _
    rw [hbase]
    show some (encodedFields.Insert u.fields (jsonEncoder.JSON H (GoVal.str k))
      (jsonEncoder.JSON H v)) = _
    unfold encodedFields.Insert
    cases hidx : encodedFields.Index u.fields (jsonEncoder.JSON H (GoVal.str k)) with
    | some i => rfl
    | none => exact absurd hidx hk
  · exact Lookup_Overwrite u.fields _ _ hk

/-- Witness for the amended C1 on the spec's own example: context
`p = 2`, call-site `p = 4`; the merged list binds `"p"` to `4`. -/
theorem C1_call_site_overrides_context_witness :
    writeMergedFields exHeap { New with fields := [("\"p\"", "2")] }
      [GoVal.str "p", GoVal.int 4] =
      some (encodedFields.Overwrite [("\"p\"", "2")]
        (jsonEncoder.JSON exHeap (GoVal.str "p")) (jsonEncoder.JSON exHeap (GoVal.int 4))) ∧
    encodedFields.Lookup
      (encodedFields.Overwrite [("\"p\"", "2")]
        (jsonEncoder.JSON exHeap (GoVal.str "p")) (jsonEncoder.JSON exHeap (GoVal.int 4)))
      (jsonEncoder.JSON exHeap (GoVal.str "p")) = some (jsonEncoder.JSON exHeap (GoVal.int 4)) :=
  C1_call_site_overrides_context exHeap { New with fields := [("\"p\"", "2")] }
    "p" (GoVal.int 4) (by decide) (by decide)

/-- Claim C3, counterexample: with the default keys, the call
`write("m", "ts", 1)` emits the caller-supplied `"ts"` field in the
line, immediately after the assembler's own timestamp and message — the
reserved key is not suppressed, because the loop compares the
JSON-encoded key fragment (`"ts"` including its quotes) with the raw
configured name (`ts`), which are never equal. -/
theorem C3_counterexample :
    c3Line = some "\x7b \"ts\": \"2019-11-18T14:00:32Z\", \"msg\": \"m\", \"ts\": 1 \x7d\n" ∧
    strContains "\x7b \"ts\": \"2019-11-18T14:00:32Z\", \"msg\": \"m\", \"ts\": 1 \x7d\n"
      ", \"ts\": 1" = true := by
  refine ⟨?_, by decide⟩
  rfl

/-- Claim C3 as amended: `Write` suppresses a merged field only when its
encoded key fragment — which includes the surrounding quotes — equals
the configured timestamp or message key name. A caller field whose raw
name is `ts` or `msg` encodes to `"ts"` / `"msg"` and is therefore
emitted alongside the assembler's own timestamp and message; only a
field whose quoted fragment happens to equal the configured name
verbatim is dropped. -/
theorem C3_reserved_keys_not_suppressed :
    (∀ (H : Heap) (v : String),
      fieldsFragment "ts" "msg" [(jsonEncoder.JSON H (GoVal.str "ts"), v)] =
        ", \"ts\": " ++ v) ∧
    (∀ (H : Heap) (v : String),
      fieldsFragment "ts" "msg" [(jsonEncoder.JSON H (GoVal.str "msg"), v)] =
        ", \"msg\": " ++ v) ∧
    (∀ v : String, fieldsFragment "ts" "msg" [("ts", v)] = "") ∧
    (∀ v : String, fieldsFragment "ts" "msg" [("msg", v)] = "") := by
  refine ⟨?_, ?_, ?_, ?_⟩
  · intro H v
    cases v
    rfl
  · intro H v
    cases v
    rfl
  · intro v
    rfl
  · intro v
    rfl

/-- Claim C4: both insertion paths keep keys unique — `AppendFields` and
`AppendEncoded` overwrite an existing slot's value in place (the key
sequence, and hence every position, is unchanged by an overwrite) and
only append genuinely new keys; consequently
`write("m", "a", 1, "a", 2)` logs `"a": 2` with no `"a": 1` in the
line, and re-deriving `with("p", 4)` after `with("p", 2)` makes a
subsequent write log `"p": 4`. -/
theorem C4_unique_keys_invariant :
    (∀ (H : Heap) (fs : List ulog.Field) (eF eF' : encodedFields),
      (encodedFields.Keys eF).Nodup →
      encodedFields.AppendFields H eF fs = some eF' →
      (encodedFields.Keys eF').Nodup) ∧
    (∀ (gs eF : encodedFields), (encodedFields.Keys eF).Nodup →
      (encodedFields.Keys (encodedFields.AppendEncoded eF gs)).Nodup) ∧
    (∀ (eF : encodedFields) (k v : String),
      encodedFields.Keys (encodedFields.Overwrite eF k v) = encodedFields.Keys eF) ∧
    (c4DupLine = some "\x7b \"ts\": \"2019-11-18T14:00:32Z\", \"msg\": \"m\", \"a\": 2 \x7d\n" ∧
      strContains "\x7b \"ts\": \"2019-11-18T14:00:32Z\", \"msg\": \"m\", \"a\": 2 \x7d\n"
        "\"a\": 1" = false) ∧
    (c4RederiveLine = some "\x7b \"ts\": \"2019-11-18T14:00:32Z\", \"msg\": \"m\", \"p\": 4 \x7d\n" ∧
      strContains "\x7b \"ts\": \"2019-11-18T14:00:32Z\", \"msg\": \"m\", \"p\": 4 \x7d\n"
        "\"p\": 2" = false) := by
  refine ⟨?_, ?_, Overwrite_Keys, ⟨by rfl, by decide⟩, ⟨by rfl, by decide⟩⟩
  · intro H fs eF eF' h heq
    exact AppendFields_nodup fs H eF eF' h heq
  · intro gs eF h
    exact AppendEncoded_nodup gs eF h

/-- Witness for C4 at `write("m", "a", 1, "a", 2)`: the merged list keeps
a single `"a"` slot, whose value was overwritten to `2`, and its key
sequence is duplicate-free. -/
theorem C4_unique_keys_invariant_witness :
    ((encodedFields.Keys ([] : encodedFields)).Nodup ∧
      encodedFields.AppendFields exHeap []
        [GoVal.str "a", GoVal.int 1, GoVal.str "a", GoVal.int 2] = some [("\"a\"", "2")]) ∧
    (encodedFields.Keys ([("\"a\"", "2")] : encodedFields)).Nodup :=
  ⟨⟨by decide, by decide⟩,
   C4_unique_keys_invariant.1 exHeap [GoVal.str "a", GoVal.int 1, GoVal.str "a", GoVal.int 2]
     [] [("\"a\"", "2")] (by decide) (by decide)⟩

/-- Claim C5: `With` copies the receiver — the derived handle gets its
own freshly merged list and the original handle's value is untouched —
and it encodes values to JSON text immediately, so the context carried
by a derived handle is a snapshot: a `Write` on the derived handle
(with no flat fields of its own) emits the same line under any heap,
i.e. mutating a map after passing it to `With` cannot change what is
logged. The concrete conjunct replays the repo's
`TestAlteringMapsDoesNotChangeLog`: the map is `{"woo": "yay"}` at
`With` time, is then mutated, and the line still shows the snapshot. -/
theorem C5_with_snapshots_context :
    (∀ (H1 : Heap) (u : ULog) (ctx : List ulog.Field) (v : ULog),
      ULog.With H1 u ctx = some v →
      ∀ (H2 H2' : Heap) (t : GoTime) (p : Pools) (msg : String),
        ULog.Write H2 t p v msg [] = ULog.Write H2' t p v msg []) ∧
    (c5Line = some
      "\x7b \"ts\": \"2019-11-18T14:00:32Z\", \"msg\": \"this is a test\", \"values\": \x7b\"woo\":\"yay\"\x7d \x7d\n") := by
  constructor
  · intro H1 u ctx v _ H2 H2' t p msg
    rfl
  · rfl

/-- Witness for C5: the derived handle of the map example writes the same
line under the `With`-time heap and the mutated heap. -/
theorem C5_with_snapshots_context_witness :
    ULog.Write c5Heap2 t0 emptyPools c5Handle "this is a test" [] =
      ULog.Write c5Heap1 t0 emptyPools c5Handle "this is a test" [] :=
  C5_with_snapshots_context.1 c5Heap1 New [GoVal.str "values", GoVal.mapRef 0]
    c5Handle (by rfl) c5Heap2 c5Heap1 t0 emptyPools "this is a test"

/-- Claim C8, counterexample: the timestamp layout
`2006-01-02T15:04:05.999999` trims trailing zeros, so the rendered
value is not fixed-width and can lack fractional seconds entirely: at
zero nanoseconds the formatted time has no `.` at all and is shorter
than at half a second, and the emitted line carries the fraction-less
timestamp. -/
theorem C8_counterexample :
    goTimeFormat t0 = "2019-11-18T14:00:32" ∧
    strContains (goTimeFormat t0) "." = false ∧
    goTimeFormat t8a = "2019-11-18T14:00:32.5" ∧
    (goTimeFormat t0).length ≠ (goTimeFormat t8a).length ∧
    c8Line = some "\x7b \"ts\": \"2019-11-18T14:00:32Z\", \"msg\": \"a message\" \x7d\n" := by
  refine ⟨by rfl, by decide, by rfl, by decide, by rfl⟩

/-- Claim C8 as amended: every emitted line has the exact shape
`{ "<tsKey>": "<timestamp>Z", "<msgKey>": <json-string>` followed by
the merged fields, ` }` and one newline, where the timestamp is the UTC
time rendered with up to six fractional digits, trailing zeros trimmed
and the fraction omitted entirely when zero — an RFC3339-compatible
value with a literal `Z` suffix, but not fixed-width. -/
theorem C8_line_shape_amended :
    (∀ (H : Heap) (t : GoTime) (p : Pools) (u : ULog) (msg : String)
        (fs : List ulog.Field) (eF : encodedFields),
      writeMergedFields H u fs = some eF →
      (ULog.Write H t p u msg fs).map Prod.snd = some
        ("\x7b \"" ++ (if u.TimestampKey = "" then DefaultTimestampKey else u.TimestampKey) ++
          "\": \"" ++ goTimeFormat t ++ "Z\", \"" ++
          (if u.MessageKey = "" then DefaultMessageKey else u.MessageKey) ++ "\": " ++
          encodeJSONString msg ++
          fieldsFragment (if u.TimestampKey = "" then DefaultTimestampKey else u.TimestampKey)
            (if u.MessageKey = "" then DefaultMessageKey else u.MessageKey) eF ++
          " \x7d\n")) ∧
    fracPart 0 = "" ∧
    (∀ ns : Nat, ns < 1000 → fracPart ns = "") ∧
    fracPart 123456789 = ".123456" ∧
    fracPart 120000000 = ".12" := by
  refine ⟨?_, by rfl, ?_, by rfl, by rfl⟩
  · intro H t p u msg fs eF h
    simp [ULog.Write, h, writeMsgStep_eq]
  · intro ns h
    unfold fracPart
    rw [Nat.div_eq_of_lt h]
    rfl

/-- Witness for the amended C8 on a plain `write("a message")` with
default keys, no context and an empty flat list. -/
theorem C8_line_shape_amended_witness :
    (ULog.Write exHeap t8a emptyPools New "a message" []).map Prod.snd = some
      ("\x7b \"" ++ (if New.TimestampKey = "" then DefaultTimestampKey else New.TimestampKey) ++
        "\": \"" ++ goTimeFormat t8a ++ "Z\", \"" ++
        (if New.MessageKey = "" then DefaultMessageKey else New.MessageKey) ++ "\": " ++
        encodeJSONString "a message" ++
        fieldsFragment (if New.TimestampKey = "" then DefaultTimestampKey else New.TimestampKey)
          (if New.MessageKey = "" then DefaultMessageKey else New.MessageKey) [] ++
        " \x7d\n") :=
  C8_line_shape_amended.1 exHeap t8a emptyPools New "a message" [] [] (by rfl)

/-- Claim C9: `Write` returns nothing to its caller — here, whenever the
flat list is well-formed (even length; the odd-length panic is the
separate C2 defect), the call completes with `some` result that is
entirely independent of the destination writer, so a destination write
failure is swallowed; and the scratch field list and scratch buffer are
reset to empty and released back to their pools unconditionally: the
resulting pools hold the reset scratch objects whatever the writer did. -/
theorem C9_write_swallows_and_releases
    (H : Heap) (t : GoTime) (p : Pools) (u : ULog) (msg : String)
    (fs : List ulog.Field) (w w' : WriterFn)
    (h : fs.length % 2 = 0) :
    (ULog.Write H t p { u with Writer := some w } msg fs).map Prod.fst =
      some { fieldLists := [] :: p.fieldLists.tail, buffers := "" :: p.buffers.tail } ∧
    ULog.Write H t p { u with Writer := some w } msg fs =
      ULog.Write H t p { u with Writer := some w' } msg fs := by
  obtain ⟨r, hr⟩ := AppendFields_even fs H (encodedFields.AppendEncoded [] u.fields) h
  have hm : writeMergedFields H { u with Writer := some w } fs = some r := hr
  have hm' : writeMergedFields H { u with Writer := some w' } fs = some r := hr
  constructor
  · simp [ULog.Write, hm, poolGetFields, poolGetBuf, poolPutFields, poolPutBuf,
      encodedFields.Reset]
  · simp [ULog.Write, hm, hm']

/-- Witness for C9 with a failing destination: the pools come back with
the reset scratch objects and the emitted line is the same as with the
default (succeeding) destination. -/
theorem C9_write_swallows_and_releases_witness :
    (ULog.Write exHeap t0 emptyPools { New with Writer := some failWriter } "m" []).map
        Prod.fst =
      some { fieldLists := [[]], buffers := [""] } ∧
    ULog.Write exHeap t0 emptyPools { New with Writer := some failWriter } "m" [] =
      ULog.Write exHeap t0 emptyPools { New with Writer := some DefaultWriter } "m" [] :=
  C9_write_swallows_and_releases exHeap t0 emptyPools New "m" [] failWriter
    DefaultWriter (by decide)
